import Mathlib

/-!
# Verification of the cluster-backup-operator utility core

Shallow embedding of `controllers/utils.go` from the cluster-backup-operator
repository, together with proofs of the specified properties.

Go strings are modelled as `List Char` wherever the source indexes or slices
them (suffix tests, substring extraction, truncation); where the source only
compares whole strings for equality (`find`, `appendUnique`, discovery
exclusion lists) we use Lean `String` directly.  Go's `(T, error)` results
are modelled with `Except String T`; a Go `nil` slice or pointer is
modelled with `Option`.
-/

namespace ClusterBackup

/-! ## Collection utilities (utils.go, findSuffix / find / findValue / appendUnique / min) -/

/-- Embedding of Go `strings.HasSuffix(s, suffix)`:
`len(s) >= len(suffix) && s[len(s)-len(suffix):] == suffix`. -/
def hasSuffix (s suffix : List Char) : Bool :=
  decide (suffix.length ≤ s.length) && s.drop (s.length - suffix.length) == suffix

/-- Inner loop of `findSuffix`, carrying the running index `i`. -/
def findSuffixAux (slice : List (List Char)) (val : List Char) (i : Nat) : Int × Bool :=
  match slice with
  | [] => (-1, false)
  | item :: rest =>
      if hasSuffix val item then ((i : Int), true)
      else findSuffixAux rest val (i + 1)

/-- Embedding of `findSuffix(slice, val)`: index of the first element of
`slice` that is a suffix of `val`, or `(-1, false)`. -/
def findSuffix (slice : List (List Char)) (val : List Char) : Int × Bool :=
  findSuffixAux slice val 0

/-- Inner loop of `find`, carrying the running index `i`. -/
def findAux (slice : List String) (val : String) (i : Nat) : Int × Bool :=
  match slice with
  | [] => (-1, false)
  | item :: rest =>
      if item = val then ((i : Int), true)
      else findAux rest val (i + 1)

/-- Embedding of `find(slice, val)`: first exact match, `(-1, false)` if absent. -/
def find (slice : List String) (val : String) : Int × Bool :=
  findAux slice val 0

/-- Embedding of `findValue(slice, val)`. -/
def findValue (slice : List String) (val : String) : Bool :=
  (find slice val).2

/-- Embedding of `appendUnique(slice, value)`: append iff not already present. -/
def appendUnique (slice : List String) (value : String) : List String :=
  if (find slice value).2 then slice else slice ++ [value]

/-! ## Naming utilities (getValidKsRestoreName, getResourceDetails) -/

/-- Embedding of `getValidKsRestoreName(clusterRestoreName, backupName)`:
concatenate with `-`, truncate to 252 characters. -/
def getValidKsRestoreName (clusterRestoreName backupName : List Char) : List Char :=
  let fullName := clusterRestoreName ++ '-' :: backupName
  if 252 < fullName.length then fullName.take 252 else fullName

/-- Index of the first occurrence of `c`, as Go `strings.Index` (`none` = `-1`). -/
def firstIndexOf (s : List Char) (c : Char) : Option Nat :=
  match s with
  | [] => none
  | x :: rest =>
      if x = c then some 0
      else (firstIndexOf rest c).map (· + 1)

/-- Embedding of `getResourceDetails(resourceName)`: split at the first `.`;
no dot means `(resourceName, "")`. -/
def getResourceDetails (resourceName : List Char) : List Char × List Char :=
  match firstIndexOf resourceName '.' with
  | some i => (resourceName.take i, resourceName.drop (i + 1))
  | none => (resourceName, [])

/-! ## Timestamp parsing (getBackupTimestamp)

`getBackupTimestamp` calls the Go standard library's
`time.Parse("20060102150405", s)`; that layout accepts exactly a 4-digit
year, then 2-digit month, day, hour, minute, second, each range-checked.
We embed the stdlib semantics for this fixed layout. -/

/-- Calendar time as produced by `time.Parse`; Go's zero `time.Time` is
January 1, year 1, 00:00:00. -/
structure GoTime where
  year : Nat
  month : Nat
  day : Nat
  hour : Nat
  minute : Nat
  second : Nat
deriving DecidableEq, Repr

/-- Go's zero `time.Time{}`. -/
def GoTime.zero : GoTime := ⟨1, 1, 1, 0, 0, 0⟩

/-- Gregorian leap-year rule used by the Go `time` package. -/
def isLeapYear (y : Nat) : Bool :=
  y % 4 == 0 && (y % 100 != 0 || y % 400 == 0)

/-- Days in a month, as Go `time.daysIn`. -/
def daysIn (month year : Nat) : Nat :=
  if month = 2 then (if isLeapYear year then 29 else 28)
  else if month = 4 ∨ month = 6 ∨ month = 9 ∨ month = 11 then 30
  else 31

/-- Decimal value of a digit string (caller guarantees digits-only). -/
def digitsToNat (s : List Char) : Nat :=
  s.foldl (fun acc c => acc * 10 + (c.toNat - '0'.toNat)) 0

/-- `s` consists of exactly 14 decimal digits encoding an in-range
year/month/day/hour/minute/second — the strings accepted by
`time.Parse("20060102150405", ·)`. -/
def matchesTimestampFormat (s : List Char) : Bool :=
  s.length == 14 && s.all Char.isDigit &&
    (let month := digitsToNat ((s.drop 4).take 2)
     let day := digitsToNat ((s.drop 6).take 2)
     let hour := digitsToNat ((s.drop 8).take 2)
     let minute := digitsToNat ((s.drop 10).take 2)
     let second := digitsToNat ((s.drop 12).take 2)
     1 ≤ month && month ≤ 12 &&
       1 ≤ day && day ≤ daysIn month (digitsToNat (s.take 4)) &&
       hour ≤ 23 && minute ≤ 59 && second ≤ 59)

/-- Embedding of `time.Parse("20060102150405", s)`: the parsed components on
a well-formed 14-digit timestamp, a parse error otherwise. -/
def timeParseTimestamp (s : List Char) : Except String GoTime :=
  if matchesTimestampFormat s then
    .ok ⟨digitsToNat (s.take 4), digitsToNat ((s.drop 4).take 2),
         digitsToNat ((s.drop 6).take 2), digitsToNat ((s.drop 8).take 2),
         digitsToNat ((s.drop 10).take 2), digitsToNat ((s.drop 12).take 2)⟩
  else
    .error "parsing time: cannot parse as 20060102150405"

/-- Index of the last occurrence of `c`, as Go `strings.LastIndex`
(`none` = `-1`). -/
def lastIndexOf (s : List Char) (c : Char) : Option Nat :=
  match s with
  | [] => none
  | x :: rest =>
      match lastIndexOf rest c with
      | some i => some (i + 1)
      | none => if x = c then some 0 else none

/-- One-sided trim of leading `c` characters, half of Go `strings.Trim`. -/
def trimLeftChar (s : List Char) (c : Char) : List Char :=
  match s with
  | [] => []
  | x :: rest => if x = c then trimLeftChar rest c else x :: rest

/-- Embedding of Go `strings.Trim(s, "-")` for the one-character cutset. -/
def trimChar (s : List Char) (c : Char) : List Char :=
  (trimLeftChar (trimLeftChar s c).reverse c).reverse

/-- Embedding of `getBackupTimestamp(backupName)`: take everything from the
last `-` on, trim the `-`s, and parse as `20060102150405`; a name with no
`-` yields the zero time with no error. -/
def getBackupTimestamp (backupName : List Char) : Except String GoTime :=
  match lastIndexOf backupName '-' with
  | some timestampIndex =>
      timeParseTimestamp (trimChar (backupName.drop timestampIndex) '-')
  | none => .ok GoTime.zero

/-! ## Storage location validation (isValidStorageLocationDefined) -/

/-- The `kind` field is all `isValidStorageLocationDefined` reads from a
`metav1.OwnerReference`. -/
structure OwnerReference where
  kind : String
deriving DecidableEq, Repr

/-- View of `veleroapi.BackupStorageLocation`: namespace, owner references
(`none` models a Go `nil` slice) and status phase. -/
structure BackupStorageLocation where
  Namespace : String
  ownerReferences : Option (List OwnerReference)
  phase : String
deriving DecidableEq, Repr

/-- `veleroapi.BackupStorageLocationPhaseAvailable`. -/
def BackupStorageLocationPhaseAvailable : String := "Available"

/-- Inner loop of `isValidStorageLocationDefined`: first owner reference
with a non-empty `Kind`. -/
def hasOwnerRefWithKind (refs : List OwnerReference) : Bool :=
  match refs with
  | [] => false
  | ref :: rest => if ref.kind ≠ "" then true else hasOwnerRefWithKind rest

/-- Embedding of `isValidStorageLocationDefined(veleroStorageLocations)`:
scan for the first location with a non-nil owner-reference slice, phase
`Available` and an owner reference with non-empty kind; short-circuit on
the first hit. -/
def isValidStorageLocationDefined (items : List BackupStorageLocation) : Bool × String :=
  match items with
  | [] => (false, "")
  | loc :: rest =>
      match loc.ownerReferences with
      | some refs =>
          if loc.phase = BackupStorageLocationPhaseAvailable ∧ hasOwnerRefWithKind refs then
            (true, loc.Namespace)
          else isValidStorageLocationDefined rest
      | none => isValidStorageLocationDefined rest

/-! ## Generic resource discovery (getGenericCRDFromAPIGroups)

The discovery client is modelled by the two calls the function makes:
`ServerGroups()` and `ServerResourcesForGroupVersion(gv)`.  `Except` models
the Go error return and `Option` models a `nil` list pointer. -/

/-- The `Kind` field is all the function reads from a `metav1.APIResource`. -/
structure APIResource where
  kind : String
deriving DecidableEq, Repr

/-- The `GroupVersion` string of a `metav1.GroupVersionForDiscovery`. -/
structure GroupVersionForDiscovery where
  groupVersion : String
deriving DecidableEq, Repr

/-- The `Name` and `Versions` fields of a `metav1.APIGroup`. -/
structure APIGroup where
  name : String
  versions : List GroupVersionForDiscovery
deriving DecidableEq, Repr

/-- The two discovery calls used by `getGenericCRDFromAPIGroups`. -/
structure DiscoveryClient where
  serverGroups : Except String (Option (List APIGroup))
  serverResourcesForGroupVersion : String → Except String (Option (List APIResource))

/-- Embedding of Go `strings.ToLower` (ASCII range): lowercase every
character of the string. -/
def toLowerStr (s : String) : String := ⟨s.data.map Char.toLower⟩

/-- Innermost loop of `getGenericCRDFromAPIGroups`: filter one group-version's
resources against the exclusion list and accumulate unique names. -/
def admitResources (excludedResources : List String) (groupName : String) :
    List APIResource → List String → List String
  | [], resources => resources
  | resource :: rest, resources =>
      let resourceKind := toLowerStr resource.kind
      let resourceName := resourceKind ++ "." ++ groupName
      admitResources excludedResources groupName rest
        (if !findValue excludedResources resourceName &&
            !findValue excludedResources resourceKind then
          appendUnique resources resourceName
        else resources)

/-- Middle loop of `getGenericCRDFromAPIGroups`: one group's versions.  A
failed or nil resource fetch, or an empty group name, skips the
group-version. -/
def collectVersions (dc : DiscoveryClient) (excludedResources : List String)
    (group : APIGroup) : List GroupVersionForDiscovery → List String → List String
  | [], resources => resources
  | version :: rest, resources =>
      collectVersions dc excludedResources group rest
        (match dc.serverResourcesForGroupVersion version.groupVersion with
         | .error _ => resources
         | .ok none => resources
         | .ok (some resourceList) =>
             if group.name = "" then resources
             else admitResources excludedResources group.name resourceList resources)

/-- Outer loop of `getGenericCRDFromAPIGroups`: all groups. -/
def collectGroups (dc : DiscoveryClient) (excludedResources : List String) :
    List APIGroup → List String → List String
  | [], resources => resources
  | group :: rest, resources =>
      collectGroups dc excludedResources rest
        (collectVersions dc excludedResources group group.versions resources)

/-- Embedding of `getGenericCRDFromAPIGroups(ctx, dc, veleroBackup)`, taking
the backup's `Spec.ExcludedResources` directly.  A failing `ServerGroups`
call is fatal and wrapped; a nil group list yields an empty result. -/
def getGenericCRDFromAPIGroups (dc : DiscoveryClient)
    (excludedResources : List String) : Except String (List String) :=
  match dc.serverGroups with
  | .error e => .error ("failed to get server groups: " ++ e)
  | .ok none => .ok []
  | .ok (some groups) => .ok (collectGroups dc excludedResources groups [])

/-! ## Hub identification (getHubIdentification)

The function resolves a REST mapping, lists the ClusterVersion singleton and
pulls `spec.clusterID` from the first item's untyped payload.  The unchecked
Go type assertion `value.(string)` panics on a non-string value; the
embedding returns `none` for a panic and `some (uid, err)` for a normal
return. -/

/-- An untyped value found in an unstructured object's `spec` map. -/
inductive GoValue where
  | vstring (s : String)
  | vint (n : Int)
  | vbool (b : Bool)
deriving DecidableEq, Repr

/-- Go `value.(string)`: `none` models the interface-conversion panic. -/
def goStringAssert : GoValue → Option String
  | .vstring s => some s
  | _ => none

/-- The parts of an `unstructured.Unstructured` payload the function reads:
`Object == nil` is `object = none`; `Object["spec"]` absent (or nil) is
`spec = none`, else the `spec` map's entries in iteration order. -/
structure UnstructuredItem where
  spec : Option (List (String × GoValue))
deriving DecidableEq, Repr

/-- The external calls made by `getHubIdentification`: the REST-mapper
lookup, whether `dyn.Resource(mapping.Resource)` is nil, and the result of
`dr.List`.  `list = .ok none` models a nil list, and a `none` element of the
item list models an item whose `Object` map is nil. -/
structure HubClient where
  restMapping : Except String Unit
  resourceIsNil : Bool
  list : Except String (Option (List (Option UnstructuredItem)))

/-- The `spec`-map scan of `getHubIdentification`: iterate all entries,
overwriting `uid` with the string assertion of every value keyed
`clusterID`; `none` models the panic of the unchecked assertion. -/
def scanSpecForClusterID : List (String × GoValue) → String → Option String
  | [], uid => some uid
  | kv :: rest, uid =>
      if kv.1 = "clusterID" then
        match goStringAssert kv.2 with
        | some u => scanSpecForClusterID rest u
        | none => none
      else scanSpecForClusterID rest uid

/-- Embedding of `getHubIdentification(ctx, dc, dyn, mapper)`: result is
`none` on panic, otherwise `some (uid, error?)`. -/
def getHubIdentification (c : HubClient) : Option (String × Option String) :=
  let uid := "unknown"
  match c.restMapping with
  | .error e => some (uid, some e)
  | .ok _ =>
      if c.resourceIsNil then some (uid, none)
      else
        match c.list with
        | .error e => some (uid, some e)
        | .ok none => some (uid, none)
        | .ok (some []) => some (uid, none)
        | .ok (some (none :: _)) => some (uid, none)
        | .ok (some (some item :: _)) =>
            match item.spec with
            | none => some (uid, none)
            | some entries => (scanSpecForClusterID entries uid).map (fun u => (u, none))

/-! ## Basic lemmas about the collection utilities -/

theorem findAux_snd_iff (slice : List String) (val : String) (i : Nat) :
    (findAux slice val i).2 = true ↔ val ∈ slice := by
  induction slice generalizing i with
  | nil => simp [findAux]
  | cons item rest ih =>
      by_cases h : item = val
      · simp [findAux, h]
      · simp [findAux, h, ih, Ne.symm h]

theorem findValue_iff (slice : List String) (val : String) :
    findValue slice val = true ↔ val ∈ slice := by
  simpa [findValue, find] using findAux_snd_iff slice val 0

theorem findValue_eq_false_iff (slice : List String) (val : String) :
    findValue slice val = false ↔ val ∉ slice := by
  rw [← findValue_iff]
  cases findValue slice val <;> simp

theorem appendUnique_of_mem {slice : List String} {value : String}
    (h : value ∈ slice) : appendUnique slice value = slice := by
  simp [appendUnique, find, (findAux_snd_iff slice value 0).mpr h]

theorem appendUnique_of_not_mem {slice : List String} {value : String}
    (h : value ∉ slice) : appendUnique slice value = slice ++ [value] := by
  have : (findAux slice value 0).2 = false := by
    cases hfa : (findAux slice value 0).2
    · rfl
    · exact absurd ((findAux_snd_iff slice value 0).mp hfa) h
  simp [appendUnique, find, this]

theorem appendUnique_nodup {slice : List String} {value : String}
    (h : slice.Nodup) : (appendUnique slice value).Nodup := by
  by_cases hmem : value ∈ slice
  · rw [appendUnique_of_mem hmem]; exact h
  · rw [appendUnique_of_not_mem hmem]
    simp [List.nodup_append, h, hmem]

theorem mem_appendUnique {slice : List String} {value x : String}
    (h : x ∈ appendUnique slice value) : x ∈ slice ∨ x = value := by
  by_cases hmem : value ∈ slice
  · rw [appendUnique_of_mem hmem] at h; exact Or.inl h
  · rw [appendUnique_of_not_mem hmem] at h
    simpa using h

/-! ## C9: appendUnique applied twice -/

/-- **C9 counterexample.**  Starting from a list that already contains the
value twice, `appendUnique` applied twice leaves both occurrences: the
result does not contain exactly one occurrence. -/
theorem appendUnique_twice_count_cex :
    ¬ (((appendUnique (appendUnique ["a", "a"] "a") "a").count "a") = 1) := by
  decide

/-- **C9 (amended).**  If the starting sequence contains the value at most
once, then applying `appendUnique` twice with that value yields a sequence
containing exactly one occurrence of the value. -/
theorem appendUnique_twice_count (slice : List String) (value : String)
    (h : slice.count value ≤ 1) :
    ((appendUnique (appendUnique slice value) value).count value) = 1 := by
  by_cases hmem : value ∈ slice
  · rw [appendUnique_of_mem hmem, appendUnique_of_mem hmem]
    have h1 : 0 < slice.count value := List.count_pos_iff.mpr hmem
    omega
  · rw [appendUnique_of_not_mem hmem]
    have hmem2 : value ∈ slice ++ [value] := by simp
    rw [appendUnique_of_mem hmem2]
    have h0 : slice.count value = 0 := List.count_eq_zero.mpr hmem
    simp [List.count_append, h0]

/-- **C9 witness.**  Concrete instance of the amended claim. -/
theorem appendUnique_twice_count_witness :
    (["b"] : List String).count "a" ≤ 1 ∧
      ((appendUnique (appendUnique ["b"] "a") "a").count "a") = 1 :=
  ⟨by decide, appendUnique_twice_count ["b"] "a" (by decide)⟩

/-! ## C7: getValidKsRestoreName -/

/-- **C7.**  `getValidKsRestoreName` returns the concatenation
`clusterRestoreName ++ "-" ++ backupName` when its length is at most 252,
exactly its first 252 characters when longer, and its result never exceeds
252 characters. -/
theorem getValidKsRestoreName_truncates (clusterRestoreName backupName : List Char) :
    ((clusterRestoreName ++ '-' :: backupName).length ≤ 252 →
        getValidKsRestoreName clusterRestoreName backupName =
          clusterRestoreName ++ '-' :: backupName) ∧
      (252 < (clusterRestoreName ++ '-' :: backupName).length →
        getValidKsRestoreName clusterRestoreName backupName =
          (clusterRestoreName ++ '-' :: backupName).take 252) ∧
      (getValidKsRestoreName clusterRestoreName backupName).length ≤ 252 := by
  refine ⟨fun h => ?_, fun h => ?_, ?_⟩
  · simp only [getValidKsRestoreName]
    rw [if_neg (by omega)]
  · simp only [getValidKsRestoreName]
    rw [if_pos h]
  · simp only [getValidKsRestoreName]
    split
    · simp [List.length_take]
    · omega

/-- **C7 witness.**  `getValidKsRestoreName("cluster1", "backup1")` is
`"cluster1-backup1"`. -/
theorem getValidKsRestoreName_truncates_witness :
    ("cluster1".toList ++ '-' :: "backup1".toList).length ≤ 252 ∧
      getValidKsRestoreName "cluster1".toList "backup1".toList =
        "cluster1-backup1".toList :=
  ⟨by decide,
    ((getValidKsRestoreName_truncates "cluster1".toList "backup1".toList).1
        (by decide)).trans (by decide)⟩

/-! ## C8: getResourceDetails -/

theorem firstIndexOf_eq_none (s : List Char) (c : Char) :
    firstIndexOf s c = none ↔ c ∉ s := by
  induction s with
  | nil => simp [firstIndexOf]
  | cons x rest ih =>
      by_cases hx : x = c
      · simp [firstIndexOf, hx]
      · simp [firstIndexOf, hx, ih, Ne.symm hx]

theorem firstIndexOf_take_drop (s : List Char) (c : Char) (i : Nat)
    (h : firstIndexOf s c = some i) :
    s.take i = s.takeWhile (fun a => a != c) ∧
      s.drop (i + 1) = (s.dropWhile (fun a => a != c)).tail := by
  induction s generalizing i with
  | nil => simp [firstIndexOf] at h
  | cons x rest ih =>
      by_cases hx : x = c
      · simp [firstIndexOf, hx] at h
        subst hx
        cases h
        simp [List.takeWhile_cons, List.dropWhile_cons]
      · simp only [firstIndexOf, if_neg hx] at h
        cases hfr : firstIndexOf rest c with
        | none => rw [hfr] at h; simp at h
        | some j =>
            rw [hfr] at h
            simp only [Option.map_some'] at h
            cases h
            obtain ⟨h1, h2⟩ := ih j hfr
            constructor
            · simp [List.takeWhile_cons, hx, h1]
            · simp [List.dropWhile_cons, hx, h2]

/-- **C8.**  `getResourceDetails` splits at the first `.`: when a dot is
present it returns the prefix before it and the full remainder after it
(which may itself contain dots); with no dot it returns the whole string
and an empty group. -/
theorem getResourceDetails_splits_at_first_dot (s : List Char) :
    ('.' ∈ s →
        getResourceDetails s =
          (s.takeWhile (fun a => a != '.'), (s.dropWhile (fun a => a != '.')).tail)) ∧
      ('.' ∉ s → getResourceDetails s = (s, [])) := by
  constructor
  · intro hmem
    cases hfi : firstIndexOf s '.' with
    | none => exact absurd ((firstIndexOf_eq_none s '.').mp hfi) (not_not_intro hmem)
    | some i =>
        obtain ⟨h1, h2⟩ := firstIndexOf_take_drop s '.' i hfi
        simp [getResourceDetails, hfi, h1, h2]
  · intro hmem
    simp [getResourceDetails, (firstIndexOf_eq_none s '.').mpr hmem]

/-- **C8 witness.**  A group with further dots is kept intact. -/
theorem getResourceDetails_splits_at_first_dot_witness :
    '.' ∈ "mykind.config.openshift.io".toList ∧
      getResourceDetails "mykind.config.openshift.io".toList =
        ("mykind".toList, "config.openshift.io".toList) :=
  ⟨by decide,
    ((getResourceDetails_splits_at_first_dot "mykind.config.openshift.io".toList).1
        (by decide)).trans (by decide)⟩

/-! ## C10: findSuffix with an empty pattern -/

theorem hasSuffix_nil (val : List Char) : hasSuffix val [] = true := by
  simp [hasSuffix]

theorem findSuffixAux_eq_findIdx (slice : List (List Char)) (val : List Char) (i : Nat)
    (h : ∃ item ∈ slice, hasSuffix val item = true) :
    findSuffixAux slice val i =
      (((i + slice.findIdx (fun item => hasSuffix val item) : Nat) : Int), true) := by
  induction slice generalizing i with
  | nil => simp at h
  | cons item rest ih =>
      by_cases hi : hasSuffix val item = true
      · simp [findSuffixAux, hi, List.findIdx_cons]
      · have h' : ∃ it ∈ rest, hasSuffix val it = true := by
          obtain ⟨it, hmem, hsuf⟩ := h
          rcases List.mem_cons.mp hmem with rfl | htail
          · exact absurd hsuf hi
          · exact ⟨it, htail, hsuf⟩
        have harith : (i + 1) + rest.findIdx (fun it => hasSuffix val it) =
            i + (item :: rest).findIdx (fun it => hasSuffix val it) := by
          simp [List.findIdx_cons, hi]
          omega
        rw [findSuffixAux, if_neg (by simp [hi]), ih (i + 1) h', harith]

/-- **C10.**  If the pattern list contains the empty string, `findSuffix`
always returns `found = true`, with the index of the first pattern that is
a suffix of the value. -/
theorem findSuffix_empty_pattern_matches (slice : List (List Char)) (val : List Char)
    (h : [] ∈ slice) :
    findSuffix slice val =
      (((slice.findIdx (fun item => hasSuffix val item) : Nat) : Int), true) := by
  have hex : ∃ item ∈ slice, hasSuffix val item = true := ⟨[], h, hasSuffix_nil val⟩
  simpa [findSuffix] using findSuffixAux_eq_findIdx slice val 0 hex

/-- **C10 witness.**  Concrete pattern list containing the empty string. -/
theorem findSuffix_empty_pattern_matches_witness :
    ([] ∈ [['a'], ([] : List Char)]) ∧
      findSuffix [['a'], []] ['b', 'a'] = (0, true) :=
  ⟨by decide,
    (findSuffix_empty_pattern_matches [['a'], []] ['b', 'a'] (by decide)).trans (by decide)⟩

/-! ## C5: isValidStorageLocationDefined -/

/-- Spec-side qualification predicate: a non-empty owner-reference list
containing a reference with non-empty kind, and phase `Available`. -/
def qualifiesStorageLocation (loc : BackupStorageLocation) : Bool :=
  (match loc.ownerReferences with
   | some refs => !refs.isEmpty && refs.any (fun r => r.kind != "")
   | none => false) &&
    (loc.phase == "Available")

theorem hasOwnerRefWithKind_eq_any (refs : List OwnerReference) :
    hasOwnerRefWithKind refs = refs.any (fun r => r.kind != "") := by
  induction refs with
  | nil => rfl
  | cons ref rest ih =>
      by_cases h : ref.kind = ""
      · simp [hasOwnerRefWithKind, h, ih]
      · simp [hasOwnerRefWithKind, h]

theorem not_isEmpty_and_any (refs : List OwnerReference) (p : OwnerReference → Bool) :
    (!refs.isEmpty && refs.any p) = refs.any p := by
  cases refs <;> simp

/-- **C5.**  `isValidStorageLocationDefined` returns `(true, ns)` for the
namespace of the first location with phase `Available` and a non-empty
owner-reference list containing a reference with non-empty kind, and
`(false, "")` when no location qualifies. -/
theorem isValidStorageLocationDefined_first_match (items : List BackupStorageLocation) :
    isValidStorageLocationDefined items =
      match items.find? qualifiesStorageLocation with
      | some loc => (true, loc.Namespace)
      | none => (false, "") := by
  induction items with
  | nil => rfl
  | cons loc rest ih =>
      cases hor : loc.ownerReferences with
      | none =>
          have hqf : qualifiesStorageLocation loc = false := by
            simp [qualifiesStorageLocation, hor]
          simp [isValidStorageLocationDefined, hor, List.find?_cons, hqf, ih]
      | some refs =>
          have hq : qualifiesStorageLocation loc =
              (hasOwnerRefWithKind refs && (loc.phase == BackupStorageLocationPhaseAvailable)) := by
            simp only [qualifiesStorageLocation, hor, BackupStorageLocationPhaseAvailable,
              not_isEmpty_and_any, hasOwnerRefWithKind_eq_any]
          by_cases hcond :
              loc.phase = BackupStorageLocationPhaseAvailable ∧ hasOwnerRefWithKind refs = true
          · have hqt : qualifiesStorageLocation loc = true := by
              rw [hq]
              simp [hcond.1, hcond.2]
            simp [isValidStorageLocationDefined, hor, hcond, List.find?_cons, hqt]
          · have hqf : qualifiesStorageLocation loc = false := by
              rw [hq]
              by_cases h1 : loc.phase = BackupStorageLocationPhaseAvailable
              · have h2 : hasOwnerRefWithKind refs = false := by
                  cases hk : hasOwnerRefWithKind refs
                  · rfl
                  · exact absurd ⟨h1, hk⟩ hcond
                simp [h2]
              · simp [h1]
            simp [isValidStorageLocationDefined, hor, hcond, List.find?_cons, hqf, ih]

/-! ## C6: getBackupTimestamp -/

theorem lastIndexOf_eq_none (s : List Char) (c : Char) :
    lastIndexOf s c = none ↔ c ∉ s := by
  induction s with
  | nil => simp [lastIndexOf]
  | cons x rest ih =>
      cases hr : lastIndexOf rest c with
      | some i =>
          have hmem : c ∈ rest := by
            by_contra hc
            rw [ih.mpr hc] at hr
            exact Option.noConfusion hr
          simp [lastIndexOf, hr, hmem]
      | none =>
          have hnr : c ∉ rest := ih.mp hr
          by_cases hx : x = c
          · simp [lastIndexOf, hr, hx]
          · simp [lastIndexOf, hr, hx, hnr, Ne.symm hx]

theorem lastIndexOf_decomp (s : List Char) (c : Char) (i : Nat)
    (h : lastIndexOf s c = some i) :
    ∃ pre post, s = pre ++ c :: post ∧ c ∉ post ∧ i = pre.length := by
  induction s generalizing i with
  | nil => simp [lastIndexOf] at h
  | cons x rest ih =>
      cases hr : lastIndexOf rest c with
      | some j =>
          simp only [lastIndexOf, hr] at h
          cases h
          obtain ⟨pre, post, hs, hnp, hlen⟩ := ih j hr
          exact ⟨x :: pre, post, by rw [hs]; rfl, hnp, by simp [hlen]⟩
      | none =>
          simp only [lastIndexOf, hr] at h
          by_cases hx : x = c
          · rw [if_pos hx] at h
            cases h
            exact ⟨[], rest, by rw [hx]; rfl, (lastIndexOf_eq_none rest c).mp hr, rfl⟩
          · rw [if_neg hx] at h
            exact Option.noConfusion h

theorem trimLeftChar_of_not_mem {l : List Char} {c : Char} (h : c ∉ l) :
    trimLeftChar l c = l := by
  cases l with
  | nil => rfl
  | cons x rest =>
      have hx : x ≠ c := by
        intro hxc
        exact h (by simp [hxc])
      simp [trimLeftChar, hx]

theorem trimChar_cons_of_not_mem {post : List Char} {c : Char} (h : c ∉ post) :
    trimChar (c :: post) c = post := by
  have h1 : trimLeftChar (c :: post) c = post := by
    simp [trimLeftChar, trimLeftChar_of_not_mem h]
  rw [trimChar, h1, trimLeftChar_of_not_mem (by simpa using h), List.reverse_reverse]

/-- Spec-side description of the trailing segment: everything after the
last `-`. -/
def afterLastDash (s : List Char) : List Char :=
  (s.reverse.takeWhile (fun a => a != '-')).reverse

theorem takeWhile_append_cons {α} (p : α → Bool) (l₁ : List α) (a : α) (l₂ : List α)
    (h1 : ∀ x ∈ l₁, p x = true) (h2 : p a = false) :
    (l₁ ++ a :: l₂).takeWhile p = l₁ := by
  induction l₁ with
  | nil => simp [List.takeWhile_cons, h2]
  | cons x rest ih =>
      have hx : p x = true := h1 x (by simp)
      simp [List.takeWhile_cons, hx, ih (fun y hy => h1 y (by simp [hy]))]

theorem afterLastDash_append (pre post : List Char) (h : '-' ∉ post) :
    afterLastDash (pre ++ '-' :: post) = post := by
  have hform : (pre ++ '-' :: post).reverse = post.reverse ++ '-' :: pre.reverse := by
    simp
  rw [afterLastDash, hform,
    takeWhile_append_cons _ _ _ _ (fun x hx => by
      have : x ≠ '-' := by
        intro hxe
        exact h (by simpa [hxe] using List.mem_reverse.mp hx)
      simp [this]) (by simp),
    List.reverse_reverse]

/-- **C6.**  `getBackupTimestamp` returns the zero time with no error when
the name has no `-`; otherwise it parses the segment after the last `-` in
the fixed `YYYYMMDDHHMMSS` format, returning a parse error when that
segment does not match the format. -/
theorem getBackupTimestamp_parses_last_segment (name : List Char) :
    ('-' ∉ name → getBackupTimestamp name = .ok GoTime.zero) ∧
      ('-' ∈ name →
        getBackupTimestamp name = timeParseTimestamp (afterLastDash name)) ∧
      ('-' ∈ name → matchesTimestampFormat (afterLastDash name) = false →
        ∃ e, getBackupTimestamp name = .error e) := by
  have key : '-' ∈ name →
      getBackupTimestamp name = timeParseTimestamp (afterLastDash name) := by
    intro h
    cases hl : lastIndexOf name '-' with
    | none => exact absurd ((lastIndexOf_eq_none name '-').mp hl) (not_not_intro h)
    | some i =>
        obtain ⟨pre, post, hs, hnp, hi⟩ := lastIndexOf_decomp name '-' i hl
        have hdrop : name.drop i = '-' :: post := by
          rw [hs, hi]
          exact List.drop_left pre ('-' :: post)
        simp only [getBackupTimestamp, hl]
        rw [hdrop, trimChar_cons_of_not_mem hnp, hs, afterLastDash_append pre post hnp]
  refine ⟨fun h => ?_, key, fun h hfmt => ?_⟩
  · simp [getBackupTimestamp, (lastIndexOf_eq_none name '-').mpr h]
  · rw [key h]
    exact ⟨"parsing time: cannot parse as 20060102150405", by simp [timeParseTimestamp, hfmt]⟩

/-- **C6 witness.**  The documented example name parses to
2023-01-01 12:00:00. -/
theorem getBackupTimestamp_parses_last_segment_witness :
    '-' ∈ "acm-resources-schedule-20230101120000".toList ∧
      getBackupTimestamp "acm-resources-schedule-20230101120000".toList =
        .ok ⟨2023, 1, 1, 12, 0, 0⟩ :=
  ⟨by decide,
    ((getBackupTimestamp_parses_last_segment "acm-resources-schedule-20230101120000".toList).2.1
        (by decide)).trans (by rfl)⟩

/-! ## C1: discovery output is exclusion-filtered and duplicate-free -/

/-- A name the discovery loop may admit from the catalog `groups`: it is
not itself excluded, and it is `lowercased-kind ++ "." ++ group` for a
resource kind actually listed under one of the group's versions, with that
bare lowercased kind not excluded either. -/
def resourceAdmissible (dc : DiscoveryClient) (excludedResources : List String)
    (groups : List APIGroup) (name : String) : Prop :=
  name ∉ excludedResources ∧
    ∃ group ∈ groups, ∃ version ∈ group.versions, ∃ resourceList resource,
      dc.serverResourcesForGroupVersion version.groupVersion = .ok (some resourceList) ∧
      resource ∈ resourceList ∧
      name = toLowerStr resource.kind ++ "." ++ group.name ∧
      toLowerStr resource.kind ∉ excludedResources

theorem admitResources_inv (dc : DiscoveryClient) (excludedResources : List String)
    (groups : List APIGroup) (group : APIGroup) (version : GroupVersionForDiscovery)
    (resourceList : List APIResource)
    (hgm : group ∈ groups) (hvm : version ∈ group.versions)
    (hrl : dc.serverResourcesForGroupVersion version.groupVersion = .ok (some resourceList))
    (rs : List APIResource) (hsub : ∀ r ∈ rs, r ∈ resourceList) (acc : List String)
    (h1 : acc.Nodup)
    (h2 : ∀ n ∈ acc, resourceAdmissible dc excludedResources groups n) :
    (admitResources excludedResources group.name rs acc).Nodup ∧
      ∀ n ∈ admitResources excludedResources group.name rs acc,
        resourceAdmissible dc excludedResources groups n := by
  induction rs generalizing acc with
  | nil => exact ⟨h1, h2⟩
  | cons resource rest ih =>
      rw [admitResources]
      have hsub' : ∀ r ∈ rest, r ∈ resourceList := fun r hr => hsub r (by simp [hr])
      by_cases hc :
          (!findValue excludedResources (toLowerStr resource.kind ++ "." ++ group.name) &&
            !findValue excludedResources (toLowerStr resource.kind)) = true
      · rw [if_pos hc]
        refine ih hsub' _ (appendUnique_nodup h1) ?_
        intro n hn
        rcases mem_appendUnique hn with hold | hnew
        · exact h2 n hold
        · subst hnew
          simp only [Bool.and_eq_true, Bool.not_eq_true'] at hc
          exact ⟨(findValue_eq_false_iff _ _).mp hc.1,
            group, hgm, version, hvm, resourceList, resource, hrl,
            hsub resource (by simp), rfl, (findValue_eq_false_iff _ _).mp hc.2⟩
      · rw [if_neg hc]
        exact ih hsub' acc h1 h2

theorem collectVersions_inv (dc : DiscoveryClient) (excludedResources : List String)
    (groups : List APIGroup) (group : APIGroup) (hgm : group ∈ groups)
    (vs : List GroupVersionForDiscovery) (hsub : ∀ v ∈ vs, v ∈ group.versions)
    (acc : List String) (h1 : acc.Nodup)
    (h2 : ∀ n ∈ acc, resourceAdmissible dc excludedResources groups n) :
    (collectVersions dc excludedResources group vs acc).Nodup ∧
      ∀ n ∈ collectVersions dc excludedResources group vs acc,
        resourceAdmissible dc excludedResources groups n := by
  induction vs generalizing acc with
  | nil => exact ⟨h1, h2⟩
  | cons version rest ih =>
      rw [collectVersions]
      have hsub' : ∀ v ∈ rest, v ∈ group.versions := fun v hv => hsub v (by simp [hv])
      cases hsr : dc.serverResourcesForGroupVersion version.groupVersion with
      | error e => exact ih hsub' acc h1 h2
      | ok orl =>
          cases orl with
          | none => exact ih hsub' acc h1 h2
          | some resourceList =>
              dsimp only
              by_cases hg : group.name = ""
              · rw [if_pos hg]
                exact ih hsub' acc h1 h2
              · rw [if_neg hg]
                obtain ⟨hn1, hn2⟩ :=
                  admitResources_inv dc excludedResources groups group version resourceList
                    hgm (hsub version (by simp)) hsr resourceList (fun r hr => hr) acc h1 h2
                exact ih hsub' _ hn1 hn2

theorem collectGroups_inv (dc : DiscoveryClient) (excludedResources : List String)
    (groups : List APIGroup) (gs : List APIGroup) (hsub : ∀ g ∈ gs, g ∈ groups)
    (acc : List String) (h1 : acc.Nodup)
    (h2 : ∀ n ∈ acc, resourceAdmissible dc excludedResources groups n) :
    (collectGroups dc excludedResources gs acc).Nodup ∧
      ∀ n ∈ collectGroups dc excludedResources gs acc,
        resourceAdmissible dc excludedResources groups n := by
  induction gs generalizing acc with
  | nil => exact ⟨h1, h2⟩
  | cons group rest ih =>
      rw [collectGroups]
      have hsub' : ∀ g ∈ rest, g ∈ groups := fun g hg => hsub g (by simp [hg])
      obtain ⟨hn1, hn2⟩ :=
        collectVersions_inv dc excludedResources groups group (hsub group (by simp))
          group.versions (fun v hv => hv) acc h1 h2
      exact ih hsub' _ hn1 hn2

/-- **C1.**  Every name in a successful discovery result comes from a
lowercased kind listed under some version of a catalog group joined to that
group's name with `"."`, is admitted only if neither the full name nor the
bare lowercased kind occurs in the exclusion list (exact membership), and
the result contains no duplicates. -/
theorem getGenericCRD_excludes_and_dedups (dc : DiscoveryClient)
    (excludedResources res : List String) (groups : List APIGroup)
    (hg : dc.serverGroups = .ok (some groups))
    (h : getGenericCRDFromAPIGroups dc excludedResources = .ok res) :
    res.Nodup ∧ ∀ name ∈ res,
      resourceAdmissible dc excludedResources groups name := by
  simp only [getGenericCRDFromAPIGroups, hg, Except.ok.injEq] at h
  subst h
  exact collectGroups_inv dc excludedResources groups groups (fun g hgm => hgm) []
    List.nodup_nil (by simp)

/-- Discovery catalog with the same kind in two versions of one group, used
to witness exclusion filtering and deduplication. -/
def dcDuplicate : DiscoveryClient where
  serverGroups :=
    .ok (some [⟨"apps", [⟨"apps/v1"⟩, ⟨"apps/v2"⟩]⟩])
  serverResourcesForGroupVersion := fun _ =>
    .ok (some [⟨"Deployment"⟩, ⟨"Pod"⟩])

/-- **C1 witness.**  With exclusion list `["pod"]`, the catalog above yields
exactly `["deployment.apps"]`: the bare kind `pod` is excluded and the
duplicate from the second version is suppressed. -/
theorem getGenericCRD_excludes_and_dedups_witness :
    (["deployment.apps"] : List String).Nodup ∧
      ∀ name ∈ (["deployment.apps"] : List String),
        resourceAdmissible dcDuplicate ["pod"]
          [⟨"apps", [⟨"apps/v1"⟩, ⟨"apps/v2"⟩]⟩] name :=
  getGenericCRD_excludes_and_dedups dcDuplicate ["pod"] ["deployment.apps"]
    [⟨"apps", [⟨"apps/v1"⟩, ⟨"apps/v2"⟩]⟩] rfl (by rfl)

/-! ## C2: discovery error handling -/

theorem collectVersions_congr (dc dcs : DiscoveryClient) (excludedResources : List String)
    (gv e : String)
    (hdc : dc.serverResourcesForGroupVersion gv = .error e)
    (hdcs : dcs.serverResourcesForGroupVersion gv = .ok none)
    (hrest : ∀ gv2, gv2 ≠ gv →
      dc.serverResourcesForGroupVersion gv2 = dcs.serverResourcesForGroupVersion gv2)
    (group : APIGroup) (vs : List GroupVersionForDiscovery) (acc : List String) :
    collectVersions dc excludedResources group vs acc =
      collectVersions dcs excludedResources group vs acc := by
  induction vs generalizing acc with
  | nil => rfl
  | cons version rest ih =>
      rw [collectVersions, collectVersions]
      by_cases hv : version.groupVersion = gv
      · rw [hv, hdc, hdcs]
        exact ih acc
      · rw [hrest version.groupVersion hv]
        exact ih _

theorem collectGroups_congr (dc dcs : DiscoveryClient) (excludedResources : List String)
    (gv e : String)
    (hdc : dc.serverResourcesForGroupVersion gv = .error e)
    (hdcs : dcs.serverResourcesForGroupVersion gv = .ok none)
    (hrest : ∀ gv2, gv2 ≠ gv →
      dc.serverResourcesForGroupVersion gv2 = dcs.serverResourcesForGroupVersion gv2)
    (groups : List APIGroup) (acc : List String) :
    collectGroups dc excludedResources groups acc =
      collectGroups dcs excludedResources groups acc := by
  induction groups generalizing acc with
  | nil => rfl
  | cons group rest ih =>
      rw [collectGroups, collectGroups,
        collectVersions_congr dc dcs excludedResources gv e hdc hdcs hrest group group.versions acc]
      exact ih _

/-- **C2.**  `getGenericCRDFromAPIGroups` errors exactly when the server
group fetch errors (immediately, with the wrapped message); a nil or empty
group list yields an empty, error-free result; any successful group fetch
yields a success; and a group-version whose resource fetch fails behaves
exactly as if that group-version's resource list were absent, so the other
group-versions' results are still accumulated. -/
theorem getGenericCRD_error_handling :
    (∀ (dc : DiscoveryClient) (excludedResources : List String) (e : String),
        dc.serverGroups = .error e →
          getGenericCRDFromAPIGroups dc excludedResources =
            .error ("failed to get server groups: " ++ e)) ∧
      (∀ (dc : DiscoveryClient) (excludedResources : List String),
        dc.serverGroups = .ok none →
          getGenericCRDFromAPIGroups dc excludedResources = .ok []) ∧
      (∀ (dc : DiscoveryClient) (excludedResources : List String),
        dc.serverGroups = .ok (some []) →
          getGenericCRDFromAPIGroups dc excludedResources = .ok []) ∧
      (∀ (dc : DiscoveryClient) (excludedResources : List String)
          (og : Option (List APIGroup)),
        dc.serverGroups = .ok og →
          ∃ res, getGenericCRDFromAPIGroups dc excludedResources = .ok res) ∧
      (∀ (dc dcs : DiscoveryClient) (excludedResources : List String) (gv e : String),
        dc.serverGroups = dcs.serverGroups →
        dc.serverResourcesForGroupVersion gv = .error e →
        dcs.serverResourcesForGroupVersion gv = .ok none →
        (∀ gv2, gv2 ≠ gv →
          dc.serverResourcesForGroupVersion gv2 = dcs.serverResourcesForGroupVersion gv2) →
          getGenericCRDFromAPIGroups dc excludedResources =
            getGenericCRDFromAPIGroups dcs excludedResources) := by
  refine ⟨?_, ?_, ?_, ?_, ?_⟩
  · intro dc excludedResources e h
    simp only [getGenericCRDFromAPIGroups, h]
  · intro dc excludedResources h
    simp only [getGenericCRDFromAPIGroups, h]
  · intro dc excludedResources h
    simp only [getGenericCRDFromAPIGroups, h]
    rfl
  · intro dc excludedResources og h
    cases og with
    | none => exact ⟨[], by simp only [getGenericCRDFromAPIGroups, h]⟩
    | some groups =>
        exact ⟨collectGroups dc excludedResources groups [],
          by simp only [getGenericCRDFromAPIGroups, h]⟩
  · intro dc dcs excludedResources gv e hg hdc hdcs hrest
    rw [getGenericCRDFromAPIGroups, getGenericCRDFromAPIGroups, ← hg]
    cases dc.serverGroups with
    | error e2 => rfl
    | ok og =>
        cases og with
        | none => rfl
        | some groups =>
            dsimp only
            rw [collectGroups_congr dc dcs excludedResources gv e hdc hdcs hrest groups []]

/-- Catalog with one group in two versions whose first version's resource
fetch fails. -/
def dcOneVersionFails : DiscoveryClient where
  serverGroups := .ok (some [⟨"g1", [⟨"g1/v1"⟩, ⟨"g1/v2"⟩]⟩])
  serverResourcesForGroupVersion := fun gv =>
    if gv = "g1/v1" then .error "boom" else .ok (some [⟨"Widget"⟩])

/-- The same catalog with the failing group-version's resource list absent
instead. -/
def dcOneVersionAbsent : DiscoveryClient where
  serverGroups := .ok (some [⟨"g1", [⟨"g1/v1"⟩, ⟨"g1/v2"⟩]⟩])
  serverResourcesForGroupVersion := fun gv =>
    if gv = "g1/v1" then .ok none else .ok (some [⟨"Widget"⟩])

/-- **C2 witness.**  With one of two group-versions failing, discovery
still succeeds with the results of the remaining group-version. -/
theorem getGenericCRD_error_handling_witness :
    getGenericCRDFromAPIGroups dcOneVersionFails [] =
        getGenericCRDFromAPIGroups dcOneVersionAbsent [] ∧
      getGenericCRDFromAPIGroups dcOneVersionFails [] = .ok ["widget.g1"] :=
  have hskip := getGenericCRD_error_handling.2.2.2.2 dcOneVersionFails dcOneVersionAbsent
    [] "g1/v1" "boom" rfl rfl rfl
    (fun gv2 h => by simp only [dcOneVersionFails, dcOneVersionAbsent, if_neg h])
  ⟨hskip, hskip.trans (by rfl)⟩

/-! ## C3: non-string clusterID panics the unchecked assertion -/

/-- A ClusterVersion singleton whose `spec.clusterID` is the integer `42`
rather than a string. -/
def hubClientNonStringID : HubClient where
  restMapping := .ok ()
  resourceIsNil := false
  list := .ok (some [some ⟨some [("clusterID", .vint 42)]⟩])

/-- **C3 evaluation.**  On a singleton whose `spec.clusterID` is not a
string, the source's unchecked `value.(string)` assertion panics (the
embedding returns `none`) instead of returning the default identity
`"unknown"`. -/
theorem getHubIdentification_nonstring_clusterID_panics :
    getHubIdentification hubClientNonStringID = none := by
  rfl

/-! ## C4: hub identity resolution is best-effort -/

theorem scanSpecForClusterID_no_key (entries : List (String × GoValue)) (uid : String)
    (h : ∀ kv ∈ entries, kv.1 ≠ "clusterID") :
    scanSpecForClusterID entries uid = some uid := by
  induction entries with
  | nil => rfl
  | cons kv rest ih =>
      rw [scanSpecForClusterID, if_neg (h kv (by simp))]
      exact ih (fun kv2 h2 => h kv2 (by simp [h2]))

theorem scanSpecForClusterID_found (entries : List (String × GoValue)) (uid s : String)
    (hnd : (entries.map Prod.fst).Nodup)
    (hmem : ("clusterID", GoValue.vstring s) ∈ entries) :
    scanSpecForClusterID entries uid = some s := by
  induction entries generalizing uid with
  | nil => simp at hmem
  | cons kv rest ih =>
      rcases List.mem_cons.mp hmem with rfl | htail
      · rw [scanSpecForClusterID, if_pos rfl]
        have hnokey : ∀ kv2 ∈ rest, kv2.1 ≠ "clusterID" := by
          intro kv2 h2 hk
          have : "clusterID" ∈ rest.map Prod.fst := by
            rw [← hk]
            exact List.mem_map_of_mem Prod.fst h2
          exact (List.nodup_cons.mp hnd).1 this
        exact scanSpecForClusterID_no_key rest s hnokey
      · have hk : kv.1 ≠ "clusterID" := by
          intro hk
          have : "clusterID" ∈ rest.map Prod.fst := by
            rw [show "clusterID" = ("clusterID", GoValue.vstring s).1 from rfl]
            exact List.mem_map_of_mem Prod.fst htail
          rw [← hk] at this
          exact (List.nodup_cons.mp hnd).1 this
        rw [scanSpecForClusterID, if_neg hk]
        exact ih uid (List.nodup_cons.mp hnd).2 htail

/-- **C4.**  When the REST mapping succeeds and the dynamic resource is
non-nil, `getHubIdentification` returns `("unknown", no error)` for a nil
or empty listing, a first item with no payload or no `spec` map, or a
`spec` map without a `clusterID` key; and it returns the string bound to
`spec.clusterID` when that value is a string. -/
theorem getHubIdentification_best_effort (c : HubClient)
    (hm : c.restMapping = .ok ()) (hr : c.resourceIsNil = false) :
    (c.list = .ok none → getHubIdentification c = some ("unknown", none)) ∧
      (c.list = .ok (some []) → getHubIdentification c = some ("unknown", none)) ∧
      (∀ rest, c.list = .ok (some (none :: rest)) →
        getHubIdentification c = some ("unknown", none)) ∧
      (∀ item rest, c.list = .ok (some (some item :: rest)) → item.spec = none →
        getHubIdentification c = some ("unknown", none)) ∧
      (∀ item rest entries, c.list = .ok (some (some item :: rest)) →
        item.spec = some entries → (∀ kv ∈ entries, kv.1 ≠ "clusterID") →
        getHubIdentification c = some ("unknown", none)) ∧
      (∀ item rest entries s, c.list = .ok (some (some item :: rest)) →
        item.spec = some entries → (entries.map Prod.fst).Nodup →
        ("clusterID", GoValue.vstring s) ∈ entries →
        getHubIdentification c = some (s, none)) := by
  refine ⟨fun h => ?_, fun h => ?_, fun rest h => ?_, fun item rest h hspec => ?_,
    fun item rest entries h hspec hnokey => ?_,
    fun item rest entries s h hspec hnd hmem => ?_⟩
  · simp [getHubIdentification, hm, hr, h]
  · simp [getHubIdentification, hm, hr, h]
  · simp [getHubIdentification, hm, hr, h]
  · simp [getHubIdentification, hm, hr, h, hspec]
  · simp [getHubIdentification, hm, hr, h, hspec,
      scanSpecForClusterID_no_key entries "unknown" hnokey]
  · simp [getHubIdentification, hm, hr, h, hspec,
      scanSpecForClusterID_found entries "unknown" s hnd hmem]

/-- A ClusterVersion singleton carrying `spec.clusterID = "hub-1234"`. -/
def hubClientStringID : HubClient where
  restMapping := .ok ()
  resourceIsNil := false
  list := .ok (some [some ⟨some [("channel", .vstring "stable"),
    ("clusterID", .vstring "hub-1234")]⟩])

/-- **C4 witness.**  The concrete singleton above resolves to its
`clusterID` string with no error. -/
theorem getHubIdentification_best_effort_witness :
    getHubIdentification hubClientStringID = some ("hub-1234", none) :=
  (getHubIdentification_best_effort hubClientStringID rfl rfl).2.2.2.2.2
    ⟨some [("channel", .vstring "stable"), ("clusterID", .vstring "hub-1234")]⟩
    [] [("channel", .vstring "stable"), ("clusterID", .vstring "hub-1234")]
    "hub-1234" rfl rfl (by decide) (by decide)

end ClusterBackup
